import Mathlib

/-!
Verification development for the longest-path program in `src/index.js`
(repository `marumo333/node-codetest`).

The program reads an edge list (`from,to,dist` per line), builds a directed
multigraph, and runs a branch-and-bound depth-first search.  Candidate paths
are recorded when an edge returns to the DFS start vertex (a closed tour);
the bound is a prefix sum over all edge weights sorted descending.

Modelling conventions:
* JS numbers that flow through the search are modelled by `JsNum`: an exact
  rational, positive or negative infinity (`parseFloat` returns them for an
  `Infinity` literal, and additions produce them), or `NaN` (produced by
  `∞ + -∞`).  Finite values are exact rationals: every decimal or exponent
  literal denotes its exact value, idealising IEEE-754 rounding/overflow,
  and all comparisons in the concrete inputs considered here are decided by
  margins far above double rounding error.
* `Number.NEGATIVE_INFINITY` (initial `bestDistance`) is `JsNum.negInf`,
  with the JS comparison semantics (`x ≤ -∞` only for `x = -∞`, and every
  comparison involving `NaN` false).
* The JS `Map`/`Set` (insertion-ordered, unique keys) are modelled by
  association lists and duplicate-free lists in insertion order.
* The unbounded JS recursion is modelled with explicit fuel; the theorem for
  claim C8 shows the result is independent of the fuel once the fuel reaches
  the vertex count, so the fuelled function is the semantics of the program.
-/

namespace NodeCodetest

set_option maxRecDepth 4000

/-- A JS number as this program can observe it: an exact finite rational,
one of the two infinities, or `NaN`.  (Weights stored in the graph are never
`NaN` — the builder filters them — but sums of weights can be, since
`∞ + -∞ = NaN`.) -/
inductive JsNum where
  | nan
  | negInf
  | finite (q : Rat)
  | posInf
deriving DecidableEq

/-- JS addition on numbers: `NaN` is absorbing, opposite infinities give
`NaN`, an infinity absorbs finite values, finite values add exactly. -/
def JsNum.add : JsNum → JsNum → JsNum
  | nan, _ => nan
  | _, nan => nan
  | posInf, posInf => posInf
  | posInf, negInf => nan
  | negInf, posInf => nan
  | negInf, negInf => negInf
  | posInf, finite _ => posInf
  | finite _, posInf => posInf
  | negInf, finite _ => negInf
  | finite _, negInf => negInf
  | finite a, finite b => finite (a + b)

instance : Add JsNum := ⟨JsNum.add⟩

/-- JS `<` on numbers: false when either side is `NaN`, infinities at the
ends, finite values compared exactly. -/
def JsNum.lt : JsNum → JsNum → Bool
  | nan, _ => false
  | _, nan => false
  | negInf, negInf => false
  | negInf, finite _ => true
  | negInf, posInf => true
  | finite _, negInf => false
  | finite a, finite b => decide (a < b)
  | finite _, posInf => true
  | posInf, _ => false

/-- JS `<=` on numbers: false when either side is `NaN` (so `x <= -∞` holds
exactly for `x = -∞`), otherwise the evident order. -/
def JsNum.le : JsNum → JsNum → Bool
  | nan, _ => false
  | _, nan => false
  | negInf, _ => true
  | finite _, negInf => false
  | finite a, finite b => decide (a ≤ b)
  | finite _, posInf => true
  | posInf, posInf => true
  | posInf, _ => false

/-- JS `x || 0` on a number: `NaN`, `0` and `-0` are falsy and give `0`
(`Rat` has no `-0`), everything else is kept. -/
def orZero : JsNum → JsNum
  | JsNum.nan => JsNum.finite 0
  | v => v

/-- One adjacency record `{ node: to, dist: dist }` (src/index.js line 34).
The stored weight is any non-`NaN` JS number — `parseFloat` can legitimately
produce `±Infinity`, and such edges are kept by the program. -/
structure Edge where
  node : Int
  dist : JsNum
deriving DecidableEq

/-- Value of a list of decimal digit characters. -/
def digitsVal (ds : List Char) : Nat :=
  ds.foldl (fun a c => a * 10 + (c.toNat - 48)) 0

/-- The JS whitespace set used by `String.prototype.trim`, `parseInt` and
`parseFloat`: ECMA WhiteSpace (TAB, VT, FF, SP, NBSP, ZWNBSP and the Unicode
space separators U+1680, U+2000–U+200A, U+202F, U+205F, U+3000) together
with the LineTerminator characters (LF, CR, LS, PS). -/
def jsWhitespace (c : Char) : Bool :=
  c.toNat = 0x9 || c.toNat = 0xA || c.toNat = 0xB || c.toNat = 0xC ||
  c.toNat = 0xD || c.toNat = 0x20 || c.toNat = 0xA0 || c.toNat = 0x1680 ||
  (0x2000 ≤ c.toNat && c.toNat ≤ 0x200A) ||
  c.toNat = 0x2028 || c.toNat = 0x2029 || c.toNat = 0x202F ||
  c.toNat = 0x205F || c.toNat = 0x3000 || c.toNat = 0xFEFF

/-- Strip one optional leading sign character, returning the sign and rest. -/
def splitSign (cs : List Char) : Int × List Char :=
  match cs with
  | '-' :: r => (-1, r)
  | '+' :: r => (1, r)
  | _ => (1, cs)

/-- JS `Number.parseInt(s, 10)`: skip leading whitespace, an optional sign,
then the longest prefix of decimal digits; `none` models `NaN` (no digit
found).  With the radix fixed to 10 no hex or exponent forms are accepted,
and trailing garbage after the digits is ignored. -/
def parseIntJS (s : String) : Option Int :=
  let p := splitSign (s.toList.dropWhile jsWhitespace)
  let ds := p.2.takeWhile Char.isDigit
  if ds.isEmpty then none else some (p.1 * (digitsVal ds : Int))

/-- The exponent part of a JS decimal literal, starting at the given suffix:
`e`/`E`, an optional sign and decimal digits.  When the digits are missing
the exponent part does not participate in the literal (JS backtracks:
`parseFloat("1e") = 1`), contributing exponent 0. -/
def expPart (cs : List Char) : Int :=
  match cs with
  | 'e' :: r | 'E' :: r =>
    let p := splitSign r
    let ds := p.2.takeWhile Char.isDigit
    if ds.isEmpty then 0 else p.1 * (digitsVal ds : Int)
  | _ => 0

/-- JS `Number.parseFloat`: skip leading whitespace and an optional sign;
the literal `Infinity` gives the signed infinity; otherwise take the longest
`StrUnsignedDecimalLiteral` prefix — integer digits, an optional `.` with
fraction digits, and an optional exponent part — requiring at least one
digit; trailing garbage is ignored and `none` models `NaN`.  The value of a
finite literal is its exact rational value (IEEE-754 rounding and overflow
to infinity of huge exponents are idealised away). -/
def parseFloatJS (s : String) : Option JsNum :=
  let p := splitSign (s.toList.dropWhile jsWhitespace)
  if List.isPrefixOf "Infinity".toList p.2 then
    some (if p.1 < 0 then JsNum.negInf else JsNum.posInf)
  else
    let intDs := p.2.takeWhile Char.isDigit
    let rest := p.2.drop intDs.length
    let fracDs :=
      match rest with
      | '.' :: r => r.takeWhile Char.isDigit
      | _ => []
    let rest2 :=
      match rest with
      | '.' :: r => r.drop fracDs.length
      | _ => rest
    if intDs.isEmpty && fracDs.isEmpty then none
    else
      some (JsNum.finite ((p.1 : Rat) *
        ((digitsVal intDs : Rat) + (digitsVal fracDs : Rat) / ((10 : Rat) ^ fracDs.length)) *
        (10 : Rat) ^ expPart rest2))

/-- Split a character list at every occurrence of `c` (the JS
`String.prototype.split` with a single-character separator: `"".split` gives
`[""]`, and adjacent separators give empty pieces). -/
def splitOnCharAux (c : Char) : List Char → List Char → List (List Char)
  | [], acc => [acc.reverse]
  | x :: xs, acc =>
    if x = c then acc.reverse :: splitOnCharAux c xs []
    else splitOnCharAux c xs (x :: acc)

/-- String wrapper for `splitOnCharAux`. -/
def splitOnChar (c : Char) (s : String) : List String :=
  (splitOnCharAux c s.toList []).map String.mk

/-- JS `String.prototype.trim`: drop the full JS whitespace set (WhiteSpace
and LineTerminator code points) from both ends. -/
def jsTrim (s : String) : String :=
  String.mk (((s.toList.dropWhile jsWhitespace).reverse.dropWhile
    jsWhitespace).reverse)

/-- Input splitting (src/index.js line 12): split on line breaks, trim each
line, drop empties.  The JS splits on `\r?\n` and then trims; since `trim`
removes `\r` as whitespace, splitting on `\n` followed by the same trim gives
the same list of lines. -/
def jsLines (input : String) : List String :=
  ((splitOnChar '\n' input).map jsTrim).filter (fun l => l != "")

/-- Parsing of one line (src/index.js lines 22–27): split on commas, trim
fields, require the first three fields non-empty (the JS falsy check on
possibly-`undefined` destructured strings), then parse two ids and a weight;
any extra fields are ignored by the destructuring. -/
def parseLine (line : String) : Option (Int × Int × JsNum) :=
  match ((splitOnChar ',' line).map jsTrim : List String) with
  | fromStr :: toStr :: distStr :: _ =>
    if fromStr = "" ∨ toStr = "" ∨ distStr = "" then none
    else
      match parseIntJS fromStr, parseIntJS toStr, parseFloatJS distStr with
      | some f, some t, some d => some (f, t, d)
      | _, _, _ => none
  | _ => none

/-- `graph.get(v)` on the association-list model of the JS `Map`
(first matching key; keys are unique in every map the program builds). -/
def mapGet : List (Int × List Edge) → Int → List Edge
  | [], _ => []
  | p :: rest, v => if p.1 = v then p.2 else mapGet rest v

/-- `graph.has(v)`. -/
def hasKey : List (Int × List Edge) → Int → Bool
  | [], _ => false
  | p :: rest, v => p.1 == v || hasKey rest v

/-- `if (!graph.has(v)) graph.set(v, [])` (src/index.js lines 31–33, 37–38). -/
def ensureKey (g : List (Int × List Edge)) (v : Int) : List (Int × List Edge) :=
  if hasKey g v then g else g ++ [(v, [])]

/-- `graph.get(v).push(e)`: append `e` to the entry with key `v`. -/
def mapPush : List (Int × List Edge) → Int → Edge → List (Int × List Edge)
  | [], _, _ => []
  | p :: rest, v, e =>
    if p.1 = v then (p.1, p.2 ++ [e]) :: mapPush rest v e
    else p :: mapPush rest v e

/-- `nodes.add(v)` on the insertion-ordered duplicate-free list model of the
JS `Set` (src/index.js lines 29–30). -/
def addNode (ns : List Int) (v : Int) : List Int :=
  if v ∈ ns then ns else ns ++ [v]

/-- The graph-building state: adjacency map and vertex set. -/
structure BuildState where
  graph : List (Int × List Edge)
  nodes : List Int
deriving DecidableEq

/-- One iteration of the build loop (src/index.js lines 21–35): a line that
fails to parse leaves the state untouched; otherwise both endpoints are added
to the vertex set and the edge is appended to the source's adjacency list. -/
def buildStep (s : BuildState) (line : String) : BuildState :=
  match parseLine line with
  | none => s
  | some (f, t, d) =>
    { graph := mapPush (ensureKey s.graph f) f { node := t, dist := d }
      nodes := addNode (addNode s.nodes f) t }

/-- The post-loop pass (src/index.js lines 37–39): every seen vertex gets an
(possibly empty) adjacency entry. -/
def finalizeNodes (s : BuildState) : BuildState :=
  { s with graph := s.nodes.foldl ensureKey s.graph }

/-- Graph construction from the input lines. -/
def buildGraph (ls : List String) : BuildState :=
  finalizeNodes (ls.foldl buildStep { graph := [], nodes := [] })

/-- Insert into a descending-sorted list, keeping it descending. -/
def insertDesc (x : JsNum) : List JsNum → List JsNum
  | [] => [x]
  | y :: ys => if JsNum.le y x then x :: y :: ys else y :: insertDesc x ys

/-- `allEdges.sort((a, b) => b - a)` (src/index.js line 52): the weights in
descending order.  Stored weights are never `NaN`, so `b - a` decides the
value order except between two equal infinities, where it returns `NaN` and
the engine keeps some order of the two equal values; any descending-by-value
order is therefore the same list of values, which is all the prefix sums
consume. -/
def sortDesc (l : List JsNum) : List JsNum := l.foldr insertDesc []

/-- All edge weights in `graph.values()` order (src/index.js lines 46–51). -/
def allEdgeDists (g : List (Int × List Edge)) : List JsNum :=
  (g.map (fun p => p.2.map Edge.dist)).flatten

/-- `prefixSum[i]` (src/index.js lines 53–56): the sum of the first `i`
entries of the sorted weight list (possibly `±∞`, or `NaN` when both
infinities occur among the summed weights). -/
def prefixSumAt (ws : List JsNum) (i : Nat) : JsNum :=
  (ws.take i).foldl (· + ·) (JsNum.finite 0)

/-- The read-only search context: the adjacency map, the vertex set, the
descending weight list, `totalNodes` and `totalEdges` (src/index.js 57–58). -/
structure Ctx where
  graph : List (Int × List Edge)
  nodes : List Int
  sortedDists : List JsNum
  totalNodes : Nat
  totalEdges : Nat
deriving DecidableEq

/-- Build the search context from the raw input text. -/
def mkCtx (input : String) : Ctx :=
  let bs := buildGraph (jsLines input)
  let sorted := sortDesc (allEdgeDists bs.graph)
  { graph := bs.graph, nodes := bs.nodes, sortedDists := sorted,
    totalNodes := bs.nodes.length, totalEdges := sorted.length }

/-- The mutable best-result pair (src/index.js lines 65–66);
`Number.NEGATIVE_INFINITY` is the initial value of `bestDistance`. -/
structure SearchState where
  bestDistance : JsNum
  bestPath : List Int
deriving DecidableEq

/-- Initial best result: `(-∞, [])`. -/
def initialState : SearchState := { bestDistance := JsNum.negInf, bestPath := [] }

/-- The candidate update (src/index.js lines 93–97):
`if (totalDist > bestDistance) { bestDistance = totalDist; bestPath = [...path, next] }`.
The comparison is JS strict `>`: any non-`NaN` value beats the initial `-∞`,
and a `NaN` total is never recorded. -/
def recordCandidate (st : SearchState) (totalDist : JsNum) (p : List Int) : SearchState :=
  if JsNum.lt st.bestDistance totalDist then
    { bestDistance := totalDist, bestPath := p }
  else st

/-- The DFS (src/index.js lines 80–107), with explicit fuel standing for the
unbounded JS recursion (see the fuel-independence theorem for claim C8).
At each call: compute the prefix-sum bound and return if it cannot beat the
best; otherwise scan the adjacency list of `current` — an edge back to
`start` is offered as a candidate, an edge to a visited vertex is skipped,
and any other edge is followed recursively.  `visited` and `path` are passed
extended rather than mutated; this is exactly the JS push/recurse/pop
discipline. -/
def dfs (ctx : Ctx) :
    Nat → Int → Int → List Int → JsNum → List Int → SearchState → SearchState
  | 0, _, _, _, _, _, st => st
  | fuel + 1, current, start, visited, distance, path, st =>
    let remainingNodes := ctx.totalNodes - visited.length
    let maxEdgesPossible := min remainingNodes ctx.totalEdges
    let maxPotentialDist := orZero (prefixSumAt ctx.sortedDists maxEdgesPossible)
    if JsNum.le (distance + maxPotentialDist) st.bestDistance then st
    else
      (mapGet ctx.graph current).foldl
        (fun acc e =>
          if e.node = start then
            recordCandidate acc (distance + e.dist) (path ++ [e.node])
          else if e.node ∈ visited then acc
          else
            dfs ctx fuel e.node start (visited ++ [e.node]) (distance + e.dist)
              (path ++ [e.node]) acc)
        st

/-- The start-vertex loop (src/index.js lines 113–116) with a given fuel. -/
def searchAllFuel (ctx : Ctx) (fuel : Nat) : SearchState :=
  ctx.nodes.foldl (fun st s => dfs ctx fuel s s [s] (JsNum.finite 0) [s] st)
    initialState

/-- The start-vertex loop with the canonical fuel `totalNodes`, which the
C8 theorem shows is already enough. -/
def searchAll (ctx : Ctx) : SearchState := searchAllFuel ctx ctx.totalNodes

/-- The fallback (src/index.js lines 119–121): when no candidate was ever
recorded and at least one vertex exists, output the first vertex alone. -/
def finalPath (ctx : Ctx) : List Int :=
  let st := searchAll ctx
  if st.bestPath.isEmpty && decide (0 < ctx.nodes.length) then
    match ctx.nodes with
    | [] => []
    | n :: _ => [n]
  else st.bestPath

/-- `bestPath.map(id => id.toString()).join('\r\n')` (src/index.js line 128). -/
def outputStr (p : List Int) : String :=
  String.intercalate "\r\n" (p.map (fun i => toString i))

/-- The whole program: `process.stdout.write(outputStr + '\r\n')`. -/
def solve (input : String) : String :=
  outputStr (finalPath (mkCtx input)) ++ "\r\n"

/-- The spec's brute-force comparison point for claim C4 ("disabling the
bound-based pruning — brute-force full enumeration"): the same search as
`dfs` with the prefix-sum pruning test removed and everything else kept. -/
def dfsNoPrune (ctx : Ctx) :
    Nat → Int → Int → List Int → JsNum → List Int → SearchState → SearchState
  | 0, _, _, _, _, _, st => st
  | fuel + 1, current, start, visited, distance, path, st =>
    (mapGet ctx.graph current).foldl
      (fun acc e =>
        if e.node = start then
          recordCandidate acc (distance + e.dist) (path ++ [e.node])
        else if e.node ∈ visited then acc
        else
          dfsNoPrune ctx fuel e.node start (visited ++ [e.node]) (distance + e.dist)
            (path ++ [e.node]) acc)
      st

/-- The start-vertex loop of the unpruned search. -/
def searchAllNoPrune (ctx : Ctx) : SearchState :=
  ctx.nodes.foldl
    (fun st s => dfsNoPrune ctx ctx.totalNodes s s [s] (JsNum.finite 0) [s] st)
    initialState

/-- `Walk g a b w p`: the vertex sequence `p` starts at `a`, ends at `b`,
follows at every step an edge present in the adjacency map `g`, and the
chosen edges' weights sum to `w`.  Extension happens at the end, matching
how the DFS grows its path. -/
inductive Walk (g : List (Int × List Edge)) : Int → Int → JsNum → List Int → Prop
  | single (a : Int) : Walk g a a (JsNum.finite 0) [a]
  | snoc {a b : Int} {w : JsNum} {p : List Int} (h : Walk g a b w p) (e : Edge)
      (he : e ∈ mapGet g b) : Walk g a e.node (w + e.dist) (p ++ [e.node])

/-- Every edge stored anywhere in the adjacency map has its destination in
the vertex list `ns`. -/
def GraphNodesOk (g : List (Int × List Edge)) (ns : List Int) : Prop :=
  ∀ p ∈ g, ∀ e ∈ p.2, e.node ∈ ns

/-- The adjacency map has pairwise distinct keys (as the JS `Map` does). -/
def KeysNodup (g : List (Int × List Edge)) : Prop :=
  (g.map Prod.fst).Nodup

/-- The best-result invariant behind claim C9: the best result is either
still the initial sentinel `(-∞, [])`, or a recorded candidate — a closed
walk in the graph through some start vertex, with at least one edge, whose
interior is duplicate-free and whose edge weights sum to the recorded best
distance. -/
def InvBest (g : List (Int × List Edge)) (ns : List Int) (st : SearchState) : Prop :=
  (st.bestDistance = JsNum.negInf ∧ st.bestPath = []) ∨
  ∃ s w, s ∈ ns ∧ st.bestDistance = w ∧ Walk g s s w st.bestPath ∧
    2 ≤ st.bestPath.length ∧ st.bestPath.dropLast.Nodup

/-- The claim C6 taxonomy of dropped lines, in the spec's words: a missing
(or empty) field among the first three, a non-numeric source or destination
id, or a non-numeric weight. -/
def LineMalformed (line : String) : Prop :=
  match ((splitOnChar ',' line).map jsTrim : List String) with
  | fromStr :: toStr :: distStr :: _ =>
    fromStr = "" ∨ toStr = "" ∨ distStr = "" ∨
    parseIntJS fromStr = none ∨ parseIntJS toStr = none ∨ parseFloatJS distStr = none
  | _ => True

/-- The flat list of `(source, destination, weight)` records stored in the
adjacency map, in storage order. -/
def edgesOf (g : List (Int × List Edge)) : List (Int × Int × JsNum) :=
  (g.map (fun p => p.2.map (fun e => (p.1, e.node, e.dist)))).flatten

/-- The five-line sample input from the spec and from tests/index.test.js. -/
def sampleInput : String := "1,2,8.54\n2,3,3.11\n3,1,2.19\n3,4,4\n4,1,1.4"

/-- A four-line input on which the program's pruning loses the optimum:
the self-loop is found first (best 101), after which every state that could
still complete the weight-102 triangle 1→2→3→1 satisfies
`distance + prefixSum[min(remainingNodes, totalEdges)] ≤ 101` and is cut. -/
def pruneLossInput : String := "1,1,101\n1,2,1\n2,3,1\n3,1,100"

/-! ### General helper lemmas -/

theorem foldl_congr_mem {α β : Type} {f g : β → α → β} :
    ∀ (l : List α) (b : β), (∀ b' a, a ∈ l → f b' a = g b' a) →
      l.foldl f b = l.foldl g b
  | [], _, _ => rfl
  | a :: l, b, h => by
    simp only [List.foldl_cons]
    rw [h b a (List.mem_cons_self a l)]
    exact foldl_congr_mem l _ (fun b' x hx => h b' x (List.mem_cons_of_mem _ hx))

theorem foldl_inv {α β : Type} {P : β → Prop} {f : β → α → β} :
    ∀ (l : List α) (b : β), (∀ b' a, a ∈ l → P b' → P (f b' a)) →
      P b → P (l.foldl f b)
  | [], _, _, hb => hb
  | a :: l, b, h, hb =>
    foldl_inv l (f b a) (fun b' x hx => h b' x (List.mem_cons_of_mem _ hx))
      (h b a (List.mem_cons_self a l) hb)

theorem Walk.ne_nil {g : List (Int × List Edge)} {a b : Int} {w : JsNum}
    {p : List Int} (h : Walk g a b w p) : p ≠ [] := by
  induction h with
  | single => simp
  | snoc h e he ih => simp

theorem Walk.head_eq {g : List (Int × List Edge)} {a b : Int} {w : JsNum}
    {p : List Int} (h : Walk g a b w p) : p.head? = some a := by
  induction h with
  | single => rfl
  | snoc h e he ih =>
    rename_i p'
    cases p' with
    | nil => exact absurd rfl h.ne_nil
    | cons q qs => simpa using ih

theorem Walk.getLast_eq {g : List (Int × List Edge)} {a b : Int} {w : JsNum}
    {p : List Int} (h : Walk g a b w p) : p.getLast? = some b := by
  induction h with
  | single => rfl
  | snoc h e he ih => simp

theorem mapGet_mem_exists {g : List (Int × List Edge)} {v : Int} {e : Edge} :
    e ∈ mapGet g v → ∃ p ∈ g, e ∈ p.2 := by
  induction g with
  | nil => simp [mapGet]
  | cons p rest ih =>
    simp only [mapGet]
    split
    · exact fun he => ⟨p, List.mem_cons_self .., he⟩
    · exact fun he =>
        have ⟨q, hq, hqe⟩ := ih he
        ⟨q, List.mem_cons_of_mem _ hq, hqe⟩

/-! ### Invariants of the graph builder -/

theorem addNode_mem {ns : List Int} {x : Int} (v : Int) (h : x ∈ ns) :
    x ∈ addNode ns v := by
  unfold addNode
  split
  · exact h
  · exact List.mem_append_left _ h

theorem addNode_self (ns : List Int) (v : Int) : v ∈ addNode ns v := by
  unfold addNode
  split
  · assumption
  · exact List.mem_append_right _ (List.mem_singleton.2 rfl)

theorem addNode_nodup {ns : List Int} (v : Int) (h : ns.Nodup) :
    (addNode ns v).Nodup := by
  unfold addNode
  split
  · exact h
  · rename_i hv
    simp [List.nodup_append, h, hv]

theorem graphNodesOk_mono {g : List (Int × List Edge)} {ns ns' : List Int}
    (h : GraphNodesOk g ns) (hsub : ∀ x ∈ ns, x ∈ ns') : GraphNodesOk g ns' :=
  fun p hp e he => hsub _ (h p hp e he)

theorem graphNodesOk_ensureKey {g : List (Int × List Edge)} {ns : List Int}
    (v : Int) (h : GraphNodesOk g ns) : GraphNodesOk (ensureKey g v) ns := by
  unfold ensureKey
  split
  · exact h
  · intro p hp e he
    rcases List.mem_append.1 hp with hp | hp
    · exact h p hp e he
    · rw [List.mem_singleton.1 hp] at he
      simp at he

theorem graphNodesOk_mapPush {g : List (Int × List Edge)} {ns : List Int}
    {v : Int} {e : Edge} (h : GraphNodesOk g ns) (he : e.node ∈ ns) :
    GraphNodesOk (mapPush g v e) ns := by
  induction g with
  | nil => intro p hp; simp [mapPush] at hp
  | cons q rest ih =>
    have hq := h q (List.mem_cons_self ..)
    have hrest : GraphNodesOk rest ns := fun p hp => h p (List.mem_cons_of_mem _ hp)
    intro p hp e' he'
    simp only [mapPush] at hp
    split at hp
    · rcases List.mem_cons.1 hp with hp | hp
      · subst hp
        rcases List.mem_append.1 he' with h2 | h2
        · exact hq e' h2
        · rw [List.mem_singleton.1 h2]; exact he
      · exact ih hrest p hp e' he'
    · rcases List.mem_cons.1 hp with hp | hp
      · subst hp; exact hq e' he'
      · exact ih hrest p hp e' he'

/-- Invariant carried through the build loop: every stored edge destination
is a seen vertex, and the vertex list is duplicate-free. -/
def BuildOk (s : BuildState) : Prop :=
  GraphNodesOk s.graph s.nodes ∧ s.nodes.Nodup

theorem buildStep_ok {s : BuildState} (line : String) (h : BuildOk s) :
    BuildOk (buildStep s line) := by
  unfold buildStep
  cases hp : parseLine line with
  | none => exact h
  | some tr =>
    obtain ⟨f, t, d⟩ := tr
    refine ⟨?_, addNode_nodup t (addNode_nodup f h.2)⟩
    refine graphNodesOk_mapPush ?_ (addNode_self ..)
    refine graphNodesOk_ensureKey f (graphNodesOk_mono h.1 ?_)
    exact fun x hx => addNode_mem t (addNode_mem f hx)

theorem buildGraph_ok (ls : List String) : BuildOk (buildGraph ls) := by
  have h0 : BuildOk (ls.foldl buildStep { graph := [], nodes := [] }) := by
    refine foldl_inv ls _ (fun s line _ h => buildStep_ok line h) ?_
    exact ⟨fun p hp => by simp at hp, List.nodup_nil⟩
  set s := ls.foldl buildStep { graph := [], nodes := [] } with hs
  refine ⟨?_, h0.2⟩
  show GraphNodesOk (s.nodes.foldl ensureKey s.graph) s.nodes
  exact foldl_inv (P := fun g => GraphNodesOk g s.nodes) s.nodes s.graph
    (fun g v _ h => graphNodesOk_ensureKey v h) h0.1

theorem mkCtx_nodesOk (input : String) :
    GraphNodesOk (mkCtx input).graph (mkCtx input).nodes :=
  (buildGraph_ok (jsLines input)).1

theorem mkCtx_nodes_nodup (input : String) : (mkCtx input).nodes.Nodup :=
  (buildGraph_ok (jsLines input)).2

theorem mkCtx_totalNodes (input : String) :
    (mkCtx input).totalNodes = (mkCtx input).nodes.length := rfl

/-! ### Fuel independence of the search (claim C8) -/

theorem nodup_concat {l : List Int} {x : Int} (h : l.Nodup) (hx : x ∉ l) :
    (l ++ [x]).Nodup := by
  simp [List.nodup_append, h, hx]

theorem nodup_subset_length {l l' : List Int} (h : l.Nodup) (hs : ∀ x ∈ l, x ∈ l') :
    l.length ≤ l'.length :=
  (List.subperm_of_subset h hs).length_le

theorem dfs_fuel_congr (ctx : Ctx) (hok : GraphNodesOk ctx.graph ctx.nodes)
    (htn : ctx.totalNodes = ctx.nodes.length) :
    ∀ (f g : Nat) (current start : Int) (visited : List Int) (distance : JsNum)
      (path : List Int) (st : SearchState),
      visited.Nodup → (∀ x ∈ visited, x ∈ ctx.nodes) →
      ctx.totalNodes - visited.length < f →
      ctx.totalNodes - visited.length < g →
      dfs ctx f current start visited distance path st =
        dfs ctx g current start visited distance path st := by
  intro f
  induction f with
  | zero =>
    intro g current start visited distance path st _ _ hf _
    exact absurd hf (Nat.not_lt_zero _)
  | succ f ih =>
    intro g current start visited distance path st hnd hsub hf hg
    cases g with
    | zero => exact absurd hg (Nat.not_lt_zero _)
    | succ g =>
      simp only [dfs]
      by_cases hpr : JsNum.le
        (distance + orZero (prefixSumAt ctx.sortedDists
          (min (ctx.totalNodes - visited.length) ctx.totalEdges))) st.bestDistance
      · simp [hpr]
      · simp only [hpr, Bool.false_eq_true, if_false]
        refine foldl_congr_mem _ st ?_
        intro acc e he
        by_cases h1 : e.node = start
        · simp [h1]
        · by_cases h2 : e.node ∈ visited
          · simp [h1, h2]
          · simp only [if_neg h1, if_neg h2]
            have henode : e.node ∈ ctx.nodes := by
              obtain ⟨p, hp, hpe⟩ := mapGet_mem_exists he
              exact hok p hp e hpe
            have hsub' : ∀ x ∈ visited ++ [e.node], x ∈ ctx.nodes := by
              intro x hx
              rcases List.mem_append.1 hx with hx | hx
              · exact hsub x hx
              · rw [List.mem_singleton.1 hx]; exact henode
            have hlen : (visited ++ [e.node]).length ≤ ctx.totalNodes := by
              rw [htn]
              exact nodup_subset_length (nodup_concat hnd h2) hsub'
            have hlen' : (visited ++ [e.node]).length = visited.length + 1 := by
              simp
            refine ih g e.node start (visited ++ [e.node]) (distance + e.dist)
              (path ++ [e.node]) acc (nodup_concat hnd h2) hsub' ?_ ?_
            · omega
            · omega

theorem searchAllFuel_congr (ctx : Ctx) (hok : GraphNodesOk ctx.graph ctx.nodes)
    (htn : ctx.totalNodes = ctx.nodes.length) (f : Nat) (hf : ctx.totalNodes ≤ f) :
    searchAllFuel ctx f = searchAll ctx := by
  unfold searchAll searchAllFuel
  refine foldl_congr_mem ctx.nodes initialState ?_
  intro st s hs
  have hpos : 0 < ctx.totalNodes := by
    rw [htn]
    exact List.length_pos.2 (List.ne_nil_of_mem hs)
  refine dfs_fuel_congr ctx hok htn f ctx.totalNodes s s [s] (JsNum.finite 0) [s] st
    (List.nodup_singleton s) ?_ ?_ ?_
  · intro x hx
    rw [List.mem_singleton.1 hx]
    exact hs
  · simp only [List.length_singleton]
    omega
  · simp only [List.length_singleton]
    omega

/-! ### The closed-tour invariant of recorded candidates (claim C9) -/

theorem JsNum.lt_irrefl (d : JsNum) : JsNum.lt d d = false := by
  cases d <;> simp [JsNum.lt]

theorem recordCandidate_cases (st : SearchState) (d : JsNum) (p : List Int) :
    recordCandidate st d p = st ∨
    recordCandidate st d p = { bestDistance := d, bestPath := p } := by
  unfold recordCandidate
  by_cases hlt : JsNum.lt st.bestDistance d
  · right
    simp [hlt]
  · left
    simp [hlt]

theorem dfs_inv (ctx : Ctx) :
    ∀ (fuel : Nat) (current start : Int) (visited : List Int) (distance : JsNum)
      (path : List Int) (st : SearchState),
      Walk ctx.graph start current distance path →
      path.Nodup →
      (∀ x, x ∈ visited ↔ x ∈ path) →
      start ∈ ctx.nodes →
      InvBest ctx.graph ctx.nodes st →
      InvBest ctx.graph ctx.nodes
        (dfs ctx fuel current start visited distance path st) := by
  intro fuel
  induction fuel with
  | zero =>
    intro current start visited distance path st _ _ _ _ hinv
    simpa only [dfs] using hinv
  | succ fuel ih =>
    intro current start visited distance path st hwalk hnd hvp hstart hinv
    simp only [dfs]
    split
    · exact hinv
    · refine foldl_inv _ st ?_ hinv
      intro acc e he hacc
      by_cases h1 : e.node = start
      · subst h1
        simp only [if_pos rfl]
        rcases recordCandidate_cases acc (distance + e.dist) (path ++ [e.node])
          with hc | hc
        · rw [hc]; exact hacc
        · rw [hc]
          right
          refine ⟨e.node, distance + e.dist, hstart, rfl, ?_, ?_, ?_⟩
          · exact Walk.snoc hwalk e he
          · have hne : path ≠ [] := hwalk.ne_nil
            have hpos : 1 ≤ path.length := List.length_pos.2 hne
            show 2 ≤ (path ++ [e.node]).length
            simp only [List.length_append, List.length_singleton]
            omega
          · show (path ++ [e.node]).dropLast.Nodup
            rw [List.dropLast_concat]
            exact hnd
      · by_cases h2 : e.node ∈ visited
        · rw [if_neg h1, if_pos h2]
          exact hacc
        · rw [if_neg h1, if_neg h2]
          have hnp : e.node ∉ path := fun hp => h2 ((hvp e.node).2 hp)
          refine ih e.node start (visited ++ [e.node]) (distance + e.dist)
            (path ++ [e.node]) acc (Walk.snoc hwalk e he)
            (nodup_concat hnd hnp) ?_ hstart hacc
          intro x
          simp only [List.mem_append, List.mem_singleton, hvp x]

/-! ### Lenient parsing and edge accounting (claim C6) -/

theorem hasKey_append (g h : List (Int × List Edge)) (v : Int) :
    hasKey (g ++ h) v = (hasKey g v || hasKey h v) := by
  induction g with
  | nil => simp [hasKey]
  | cons p rest ih => simp [hasKey, ih, Bool.or_assoc]

theorem hasKey_false_forall {g : List (Int × List Edge)} {v : Int}
    (h : hasKey g v = false) : ∀ p ∈ g, p.1 ≠ v := by
  induction g with
  | nil => simp
  | cons q rest ih =>
    simp only [hasKey, Bool.or_eq_false_iff, beq_eq_false_iff_ne, ne_eq] at h
    intro p hp
    rcases List.mem_cons.1 hp with hp | hp
    · rw [hp]; exact h.1
    · exact ih h.2 p hp

theorem mapPush_of_absent {g : List (Int × List Edge)} {v : Int} (e : Edge)
    (h : ∀ p ∈ g, p.1 ≠ v) : mapPush g v e = g := by
  induction g with
  | nil => rfl
  | cons p rest ih =>
    have hp : p.1 ≠ v := h p (List.mem_cons_self ..)
    simp only [mapPush, if_neg hp]
    rw [ih (fun q hq => h q (List.mem_cons_of_mem _ hq))]

theorem keys_mapPush (g : List (Int × List Edge)) (v : Int) (e : Edge) :
    (mapPush g v e).map Prod.fst = g.map Prod.fst := by
  induction g with
  | nil => rfl
  | cons p rest ih =>
    simp only [mapPush]
    split
    · simp [ih]
    · simp [ih]

theorem hasKey_iff_mem_keys (g : List (Int × List Edge)) (v : Int) :
    hasKey g v = true ↔ v ∈ g.map Prod.fst := by
  induction g with
  | nil => simp [hasKey]
  | cons p rest ih =>
    simp only [hasKey, Bool.or_eq_true, beq_iff_eq, ih, List.map_cons, List.mem_cons]
    constructor
    · rintro (h | h)
      · exact Or.inl h.symm
      · exact Or.inr h
    · rintro (h | h)
      · exact Or.inl h.symm
      · exact Or.inr h

theorem keysNodup_ensureKey {g : List (Int × List Edge)} (v : Int)
    (h : KeysNodup g) : KeysNodup (ensureKey g v) := by
  unfold ensureKey
  split
  · exact h
  · rename_i hk
    have hv : v ∉ g.map Prod.fst := fun hm => hk ((hasKey_iff_mem_keys g v).2 hm)
    have h' : (g.map Prod.fst).Nodup := h
    unfold KeysNodup
    simp [List.nodup_append, h', hv]

theorem keysNodup_mapPush {g : List (Int × List Edge)} (v : Int) (e : Edge)
    (h : KeysNodup g) : KeysNodup (mapPush g v e) := by
  unfold KeysNodup
  rw [keys_mapPush]
  exact h

theorem hasKey_ensureKey (g : List (Int × List Edge)) (v : Int) :
    hasKey (ensureKey g v) v = true := by
  unfold ensureKey
  split
  · assumption
  · simp [hasKey_append, hasKey]

theorem edgesOf_cons (p : Int × List Edge) (g : List (Int × List Edge)) :
    edgesOf (p :: g) = p.2.map (fun e => (p.1, e.node, e.dist)) ++ edgesOf g := rfl

theorem edgesOf_append (g h : List (Int × List Edge)) :
    edgesOf (g ++ h) = edgesOf g ++ edgesOf h := by
  simp [edgesOf]

theorem edgesOf_ensureKey (g : List (Int × List Edge)) (v : Int) :
    edgesOf (ensureKey g v) = edgesOf g := by
  unfold ensureKey
  split
  · rfl
  · rw [edgesOf_append]
    simp [edgesOf]

theorem edgesOf_mapPush_perm {g : List (Int × List Edge)} {v : Int} (e : Edge)
    (hk : hasKey g v = true) (hnd : KeysNodup g) :
    (edgesOf (mapPush g v e)).Perm ((v, e.node, e.dist) :: edgesOf g) := by
  induction g with
  | nil => simp [hasKey] at hk
  | cons p rest ih =>
    have hndr : KeysNodup rest := (List.nodup_cons.1 hnd).2
    by_cases hp : p.1 = v
    · have hnr : ∀ q ∈ rest, q.1 ≠ v := by
        intro q hq hqv
        exact (List.nodup_cons.1 hnd).1
          (hp ▸ hqv ▸ List.mem_map_of_mem Prod.fst hq)
      simp only [mapPush, if_pos hp]
      rw [mapPush_of_absent e hnr]
      rw [edgesOf_cons (p.1, p.2 ++ [e]) rest]
      simp only [List.map_append]
      rw [List.append_assoc]
      rw [edgesOf_cons p rest]
      simp only [List.map_cons, List.map_nil, List.singleton_append, hp]
      exact List.perm_middle
    · simp only [mapPush, if_neg hp]
      rw [edgesOf_cons p (mapPush rest v e), edgesOf_cons p rest]
      have hkr : hasKey rest v = true := by
        simp only [hasKey, Bool.or_eq_true, beq_iff_eq] at hk
        rcases hk with hk | hk
        · exact absurd hk hp
        · exact hk
      exact (List.Perm.append_left _ (ih hkr hndr)).trans List.perm_middle

theorem edgesOf_foldl_ensureKey (ns : List Int) :
    ∀ g : List (Int × List Edge), edgesOf (ns.foldl ensureKey g) = edgesOf g := by
  induction ns with
  | nil => intro g; rfl
  | cons v rest ih =>
    intro g
    simp only [List.foldl_cons]
    rw [ih (ensureKey g v), edgesOf_ensureKey]

theorem keysNodup_foldl_ensureKey (ns : List Int) :
    ∀ g : List (Int × List Edge), KeysNodup g → KeysNodup (ns.foldl ensureKey g) := by
  induction ns with
  | nil => exact fun g h => h
  | cons v rest ih =>
    intro g h
    simp only [List.foldl_cons]
    exact ih (ensureKey g v) (keysNodup_ensureKey v h)

theorem buildFold_keysNodup (ls : List String) :
    KeysNodup (ls.foldl buildStep { graph := [], nodes := [] }).graph := by
  refine @foldl_inv String BuildState (fun s => KeysNodup s.graph) buildStep ls
    { graph := [], nodes := [] } ?_ List.nodup_nil
  intro s line _ h
  unfold buildStep
  cases hp : parseLine line with
  | none => exact h
  | some tr =>
    obtain ⟨f, t, d⟩ := tr
    exact keysNodup_mapPush f _ (keysNodup_ensureKey f h)

theorem buildStep_none {s : BuildState} {line : String}
    (h : parseLine line = none) : buildStep s line = s := by
  unfold buildStep
  rw [h]

theorem buildStep_some {s : BuildState} {line : String} {f t : Int} {d : JsNum}
    (h : parseLine line = some (f, t, d)) :
    buildStep s line =
      { graph := mapPush (ensureKey s.graph f) f { node := t, dist := d }
        nodes := addNode (addNode s.nodes f) t } := by
  unfold buildStep
  rw [h]

theorem parseLine_none_iff (line : String) :
    parseLine line = none ↔ LineMalformed line := by
  unfold parseLine LineMalformed
  cases hm : (splitOnChar ',' line).map jsTrim with
  | nil => simp
  | cons a rest =>
    cases rest with
    | nil => simp
    | cons b rest2 =>
      cases rest2 with
      | nil => simp
      | cons c rest3 =>
        by_cases h1 : a = "" ∨ b = "" ∨ c = ""
        · simp only [h1, if_true, true_iff]
          rcases h1 with h | h | h
          · exact Or.inl h
          · exact Or.inr (Or.inl h)
          · exact Or.inr (Or.inr (Or.inl h))
        · push_neg at h1
          obtain ⟨ha, hb, hc⟩ := h1
          cases hpa : parseIntJS a with
          | none => simp [hpa, ha, hb, hc]
          | some fa =>
            cases hpb : parseIntJS b with
            | none => simp [hpa, hpb, ha, hb, hc]
            | some fb =>
              cases hpc : parseFloatJS c with
              | none => simp [hpa, hpb, hpc, ha, hb, hc]
              | some fc => simp [hpa, hpb, hpc, ha, hb, hc]

theorem searchAll_inv (ctx : Ctx) : InvBest ctx.graph ctx.nodes (searchAll ctx) := by
  unfold searchAll searchAllFuel
  refine foldl_inv _ initialState ?_ (Or.inl ⟨rfl, rfl⟩)
  intro st s hs hst
  refine dfs_inv ctx ctx.totalNodes s s [s] (JsNum.finite 0) [s] st (Walk.single s)
    (List.nodup_singleton s) ?_ hs hst
  intro x
  simp

/-! ## Claim theorems -/

/-- C1: the claim (and the repository's own test in tests/index.test.js)
says the five-line sample yields the vertex sequence 1,2,3,4 with best total
15.65 and no loop back through vertex 1; the program instead closes the tour
back to the start vertex: it emits the sequence 1,2,3,4,1 with best total
17.05, looping back through vertex 1 via the edge 4→1. -/
theorem c1_sample_evaluation :
    solve sampleInput = "1\r\n2\r\n3\r\n4\r\n1\r\n" ∧
    (searchAll (mkCtx sampleInput)).bestDistance = JsNum.finite (1705 / 100) ∧
    solve sampleInput ≠ "1\r\n2\r\n3\r\n4" := by
  with_unfolding_all decide

/-- C2: the claim's dead-end recording rule does not exist in the program —
candidates are recorded only when an edge returns to the start vertex.  On
the input `1,2,5`, vertex 2 is a dead end reached with distance 5 > -∞, yet
the search records nothing (the final search state is still the initial
sentinel); the single-vertex fallback then prints `1`, not the claimed
two-vertex path 1,2. -/
theorem c2_dead_end_not_recorded :
    searchAll (mkCtx "1,2,5") = initialState ∧
    finalPath (mkCtx "1,2,5") = [1] ∧
    solve "1,2,5" = "1\r\n" := by
  with_unfolding_all decide

/-- C3: the claim says every vertex of the result path appears exactly once
and no self-loop edge is ever traversed; on the input `1,1,5` the program's
result path is 1,1 — vertex 1 appears twice and the only traversed edge is
the self-loop 1→1. -/
theorem c3_self_loop_traversed :
    finalPath (mkCtx "1,1,5") = [1, 1] ∧
    ¬ (finalPath (mkCtx "1,1,5")).Nodup := by
  with_unfolding_all decide

/-- C4: the prefix-sum bound counts at most `remainingNodes` further edges,
but a closed tour may still use one more (the closing edge back to the
start), so the bound can underestimate and pruning is unsound.  On
`pruneLossInput` the pruned search returns best 101 with path 1,1 while the
identical search with pruning disabled returns best 102 with path 1,2,3,1 —
pruning loses a strictly longer path, contradicting the claim. -/
theorem c4_pruning_loses_best :
    (searchAll (mkCtx pruneLossInput)).bestDistance = JsNum.finite 101 ∧
    (searchAll (mkCtx pruneLossInput)).bestPath = [1, 1] ∧
    (searchAllNoPrune (mkCtx pruneLossInput)).bestDistance = JsNum.finite 102 ∧
    (searchAllNoPrune (mkCtx pruneLossInput)).bestPath = [1, 2, 3, 1] := by
  with_unfolding_all decide

/-- C5, counterexample: the claim says empty input produces the empty
string; the program's output on empty input is not the empty string. -/
theorem c5_counterexample : solve "" ≠ "" := by
  with_unfolding_all decide

/-- C5, amended: for empty input the search yields no path and the emitted
text is exactly the two-character CRLF terminator — the empty path joined is
the empty string, but the unconditional trailing CRLF is still written. -/
theorem c5_empty_input_emits_crlf :
    finalPath (mkCtx "") = [] ∧ solve "" = "\r\n" := by
  with_unfolding_all decide

/-- C6: a line contributes nothing — the build state is left fully
unchanged, no edge and no vertices — precisely when it fails to parse, and
the failing lines are exactly those with a missing or empty field among the
first three, or a source id, destination id or weight without a parseable
numeric prefix (JS `parseInt`/`parseFloat` semantics); every other line
contributes exactly one edge record (kept as a distinct record, so
duplicates are preserved) together with its two endpoint vertices. -/
theorem c6_lenient_parsing (ls : List String) (line : String) :
    (parseLine line = none ↔ LineMalformed line) ∧
    (parseLine line = none → buildGraph (ls ++ [line]) = buildGraph ls) ∧
    (∀ f t d, parseLine line = some (f, t, d) →
      (edgesOf (buildGraph (ls ++ [line])).graph).Perm
        ((f, t, d) :: edgesOf (buildGraph ls).graph) ∧
      (buildGraph (ls ++ [line])).nodes =
        addNode (addNode (buildGraph ls).nodes f) t) := by
  refine ⟨parseLine_none_iff line, ?_, ?_⟩
  · intro h
    unfold buildGraph
    rw [List.foldl_append]
    simp only [List.foldl_cons, List.foldl_nil]
    rw [buildStep_none h]
  · intro f t d h
    have hkn := buildFold_keysNodup ls
    unfold buildGraph
    rw [List.foldl_append]
    simp only [List.foldl_cons, List.foldl_nil]
    rw [buildStep_some h]
    constructor
    · unfold finalizeNodes
      simp only
      rw [edgesOf_foldl_ensureKey, edgesOf_foldl_ensureKey]
      have hperm := edgesOf_mapPush_perm { node := t, dist := d }
        (hasKey_ensureKey (ls.foldl buildStep { graph := [], nodes := [] }).graph f)
        (keysNodup_ensureKey f hkn)
      rw [edgesOf_ensureKey] at hperm
      exact hperm
    · rfl

/-- Witness for C6 at concrete inputs: the malformed line `1,2` is dropped
with the whole build state unchanged, while the lines `1,2,5`,
`1,2,Infinity` (an infinite but numeric weight), `1,2,1e3` (exponent form,
value 1000) and `1,2,<VT>3` (a field padded with vertical-tab whitespace)
are all kept, each appending exactly its one edge record. -/
theorem c6_witness :
    buildGraph (["3,4,2"] ++ ["1,2"]) = buildGraph ["3,4,2"] ∧
    (edgesOf (buildGraph (["3,4,2"] ++ ["1,2,5"])).graph).Perm
      ((1, 2, JsNum.finite 5) :: edgesOf (buildGraph ["3,4,2"]).graph) ∧
    (edgesOf (buildGraph (["3,4,2"] ++ ["1,2,Infinity"])).graph).Perm
      ((1, 2, JsNum.posInf) :: edgesOf (buildGraph ["3,4,2"]).graph) ∧
    (edgesOf (buildGraph (["3,4,2"] ++ ["1,2,1e3"])).graph).Perm
      ((1, 2, JsNum.finite 1000) :: edgesOf (buildGraph ["3,4,2"]).graph) ∧
    (edgesOf (buildGraph (["3,4,2"] ++ ["1,2,\x0B3"])).graph).Perm
      ((1, 2, JsNum.finite 3) :: edgesOf (buildGraph ["3,4,2"]).graph) :=
  ⟨(c6_lenient_parsing ["3,4,2"] "1,2").2.1 (by with_unfolding_all decide),
   ((c6_lenient_parsing ["3,4,2"] "1,2,5").2.2 1 2 (JsNum.finite 5)
     (by with_unfolding_all decide)).1,
   ((c6_lenient_parsing ["3,4,2"] "1,2,Infinity").2.2 1 2 JsNum.posInf
     (by with_unfolding_all decide)).1,
   ((c6_lenient_parsing ["3,4,2"] "1,2,1e3").2.2 1 2 (JsNum.finite 1000)
     (by with_unfolding_all decide)).1,
   ((c6_lenient_parsing ["3,4,2"] "1,2,\x0B3").2.2 1 2 (JsNum.finite 3)
     (by with_unfolding_all decide)).1⟩

/-- C7: the program is a pure function of its input — two runs on the same
input produce the same output and the same search state — and the candidate
update compares with strict greater-than, so a later-found candidate whose
total distance equals the current best never replaces the earlier one. -/
theorem c7_deterministic_strict_tiebreak :
    (∀ input : String, solve input = solve input ∧
      searchAll (mkCtx input) = searchAll (mkCtx input)) ∧
    (∀ (st : SearchState) (d : JsNum) (p : List Int),
      st.bestDistance = d → recordCandidate st d p = st) := by
  refine ⟨fun _ => ⟨rfl, rfl⟩, fun st d p h => ?_⟩
  unfold recordCandidate
  rw [h, JsNum.lt_irrefl]
  simp

/-- Witness for C7: the second run of the program on `1,2,5` agrees with the
first, and a candidate tying the recorded best 5 does not replace it. -/
theorem c7_witness :
    solve "1,2,5" = solve "1,2,5" ∧
    recordCandidate { bestDistance := JsNum.finite 5, bestPath := [1, 2, 1] }
        (JsNum.finite 5) [2, 1, 2] =
      { bestDistance := JsNum.finite 5, bestPath := [1, 2, 1] } :=
  ⟨(c7_deterministic_strict_tiebreak.1 "1,2,5").1,
   c7_deterministic_strict_tiebreak.2
     { bestDistance := JsNum.finite 5, bestPath := [1, 2, 1] }
     (JsNum.finite 5) [2, 1, 2] rfl⟩

/-- C8: the search is total on every finite input graph.  Each recursive
call is made only on a vertex not yet in the visited set and strictly grows
that set, which stays inside the finite vertex set, so recursion depth is
bounded by the vertex count: running the fuelled model with any fuel of at
least `totalNodes` gives the same final state as the canonical run — the
fuel bound is never reached and the whole computation over all start
vertices is total. -/
theorem c8_search_total (input : String) (f : Nat)
    (hf : (mkCtx input).totalNodes ≤ f) :
    searchAllFuel (mkCtx input) f = searchAll (mkCtx input) :=
  searchAllFuel_congr (mkCtx input) (mkCtx_nodesOk input) (mkCtx_totalNodes input) f hf

/-- Witness for C8: on the input `1,2,5` (two vertices), fuel 7 produces the
same search state as the canonical fuel. -/
theorem c8_witness :
    searchAllFuel (mkCtx "1,2,5") 7 = searchAll (mkCtx "1,2,5") :=
  c8_search_total "1,2,5" 7 (by with_unfolding_all decide)

/-- C9: whatever the input, the search's final best result is either the
untouched initial sentinel or a recorded candidate, and every recorded
candidate is a closed walk through its DFS start vertex: its first and last
entries equal that start vertex, its length is at least 2, its entries are
pairwise distinct except that the first equals the last, and consecutive
entries are joined by input edges whose weights sum to the recorded best
distance. -/
theorem c9_recorded_best_is_closed_tour (input : String) :
    ((searchAll (mkCtx input)).bestDistance = JsNum.negInf ∧
      (searchAll (mkCtx input)).bestPath = []) ∨
    ∃ s w, s ∈ (mkCtx input).nodes ∧
      (searchAll (mkCtx input)).bestDistance = w ∧
      (searchAll (mkCtx input)).bestPath.head? = some s ∧
      (searchAll (mkCtx input)).bestPath.getLast? = some s ∧
      2 ≤ (searchAll (mkCtx input)).bestPath.length ∧
      (searchAll (mkCtx input)).bestPath.dropLast.Nodup ∧
      Walk (mkCtx input).graph s s w (searchAll (mkCtx input)).bestPath := by
  rcases searchAll_inv (mkCtx input) with h | ⟨s, w, hs, hd, hw, hlen, hnd⟩
  · exact Or.inl h
  · exact Or.inr ⟨s, w, hs, hd, hw.head_eq, hw.getLast_eq, hlen, hnd, hw⟩

/-- C10: the emitted text is always the decimal ids of the final path joined
by CRLF followed by exactly one trailing CRLF; in particular, when the final
path is empty (empty graph) the program still writes the two characters CR
LF rather than nothing. -/
theorem c10_output_format (input : String) :
    solve input =
      String.intercalate "\r\n"
        ((finalPath (mkCtx input)).map (fun i => toString i)) ++ "\r\n" ∧
    (finalPath (mkCtx input) = [] → solve input = "\r\n") := by
  refine ⟨rfl, fun h => ?_⟩
  unfold solve outputStr
  rw [h]
  rfl

/-- Witness for C10 at the empty input: the final path is empty and the
program still emits CRLF. -/
theorem c10_witness :
    solve "" =
      String.intercalate "\r\n"
        ((finalPath (mkCtx "")).map (fun i => toString i)) ++ "\r\n" ∧
    solve "" = "\r\n" :=
  ⟨(c10_output_format "").1, (c10_output_format "").2 (by with_unfolding_all decide)⟩

end NodeCodetest
